import Mathlib

/-!
Verification of the `lexer` package of `andrieee44/langengine`.

The package provides a buffered rune-level cursor over a byte stream
(`src/lexer/reader.go`).  We embed the code shallowly:

* bytes and runes are `Nat` (all the arithmetic in the Go code stays far
  below any machine bound, so no wrap-around modelling is needed;
  the only signed subtractions in the Go code occur inside comparisons
  whose branches agree with truncated `Nat` subtraction on every state
  exercised here);
* the underlying `io.Reader` is modelled as the remaining byte list of a
  `strings.Reader`/`bytes.Reader` (the source used by the package tests):
  a `Read` returns `min(requested, remaining)` bytes with no error when
  bytes remain, and `(0, io.EOF)` when exhausted;
* Go runtime panics (the explicit `panic` for a bogus reader, and the
  slice-bounds fault in `fill`) are modelled by `Option`: `none` is a panic.
-/

/-- Line/column position, mirroring `lexer.Position`. -/
structure Position where
  Line : Nat
  Column : Nat
deriving DecidableEq, Repr

/-- One history entry, mirroring the unexported `snapshot` struct. -/
structure snapshot where
  currentPos : Position
  current : Nat
deriving DecidableEq, Repr

/-- The only error the modelled byte source can report (`io.EOF`). -/
inductive GoErr where
  | eof
deriving DecidableEq, Repr

/-- The lexer state, mirroring `lexer.Reader`.  The `rd io.Reader` field is
replaced by `src`, the bytes the source has not yet delivered. -/
structure Reader where
  buf : List Nat
  history : List snapshot
  src : List Nat
  err : Option GoErr
  startPos : Position
  currentPos : Position
  head : Nat
  start : Nat
  current : Nat
deriving DecidableEq, Repr

/-- `lexer.EOF`: the sentinel rune, literally `rune(0)` in the source. -/
def EOF : Nat := 0

/-- `readSize` constant from the source. -/
def readSize : Nat := 4096

/-- `initBufSize` constant from the source. -/
def initBufSize : Nat := readSize * 2

/-- `utf8.UTFMax`. -/
def UTFMax : Nat := 4

/-- `utf8.RuneError` (U+FFFD). -/
def RuneError : Nat := 0xFFFD

/-- `unicode/utf8.DecodeRune` on a byte list: returns the decoded rune and
its byte width.  Faithful to the Go implementation, including the
permissive error behaviour: empty input gives `(RuneError, 0)`, any invalid
or truncated encoding gives `(RuneError, 1)`.  The acceptance windows for
the second byte (`0xE0/0xED/0xF0/0xF4` rows) match Go's `acceptRanges`. -/
def decodeRune : List Nat → Nat × Nat
  | [] => (RuneError, 0)
  | b0 :: rest =>
    if b0 < 0x80 then (b0, 1)
    else if b0 < 0xC2 then (RuneError, 1)
    else if b0 < 0xE0 then
      match rest with
      | b1 :: _ =>
        if 0x80 ≤ b1 ∧ b1 ≤ 0xBF then ((b0 - 0xC0) * 0x40 + (b1 - 0x80), 2)
        else (RuneError, 1)
      | [] => (RuneError, 1)
    else if b0 < 0xF0 then
      let lo := if b0 = 0xE0 then 0xA0 else 0x80
      let hi := if b0 = 0xED then 0x9F else 0xBF
      match rest with
      | b1 :: b2 :: _ =>
        if lo ≤ b1 ∧ b1 ≤ hi then
          if 0x80 ≤ b2 ∧ b2 ≤ 0xBF then
            ((b0 - 0xE0) * 0x1000 + (b1 - 0x80) * 0x40 + (b2 - 0x80), 3)
          else (RuneError, 1)
        else (RuneError, 1)
      | _ => (RuneError, 1)
    else if b0 < 0xF5 then
      let lo := if b0 = 0xF0 then 0x90 else 0x80
      let hi := if b0 = 0xF4 then 0x8F else 0xBF
      match rest with
      | b1 :: b2 :: b3 :: _ =>
        if lo ≤ b1 ∧ b1 ≤ hi then
          if 0x80 ≤ b2 ∧ b2 ≤ 0xBF then
            if 0x80 ≤ b3 ∧ b3 ≤ 0xBF then
              ((b0 - 0xF0) * 0x40000 + (b1 - 0x80) * 0x1000
                + (b2 - 0x80) * 0x40 + (b3 - 0x80), 4)
            else (RuneError, 1)
          else (RuneError, 1)
        else (RuneError, 1)
      | _ => (RuneError, 1)
    else (RuneError, 1)

/-- `lexer.NewReader` applied to a `strings.Reader` over `input`. -/
def NewReader (input : List Nat) : Reader :=
  { buf := []
    history := []
    src := input
    err := none
    startPos := ⟨1, 1⟩
    currentPos := ⟨1, 1⟩
    head := 0
    start := 0
    current := 0 }

/-- One `Read` of up to `readSize` bytes from the modelled source:
`(delivered bytes, remaining bytes, reported error)`. -/
def srcRead (src : List Nat) : List Nat × List Nat × Option GoErr :=
  match src with
  | [] => ([], [], some GoErr.eof)
  | _ => (src.take readSize, src.drop readSize, none)

/-- Overwrite `buf` starting at index `i` with `data` (Go `copy` into a
sub-slice whose bounds have already been checked). -/
def writeAt (buf : List Nat) (i : Nat) (data : List Nat) : List Nat :=
  buf.take i ++ data ++ buf.drop (i + data.length)

/-- `(*Reader).fill`, translated line by line.  `none` models a Go runtime
panic: either the explicit bogus-reader panic or a slice-bounds fault in
`lrd.buf[lrd.start:]` or `lrd.buf[lrd.head : lrd.head+readSize]`. -/
def fill (r : Reader) : Option Reader :=
  let buf0 := if r.buf.isEmpty then List.replicate initBufSize 0 else r.buf
  if r.err = some GoErr.eof ∨ UTFMax ≤ r.head - r.current then
    some { r with buf := buf0 }
  else
    let grown :=
      if readSize ≤ buf0.length - r.head then
        some (buf0, r.head, r.start, r.current)
      else if buf0.length - readSize ≤ r.current - r.start then
        some (buf0 ++ List.replicate buf0.length 0, r.head, r.start, r.current)
      else if buf0.length < r.start then
        none
      else
        some (buf0.drop r.start ++ buf0.drop (buf0.length - r.start),
              r.head - r.start, 0, r.current - r.start)
    grown.bind fun (buf1, head1, start1, current1) =>
      if buf1.length < head1 + readSize then
        none
      else
        let (data, src1, rerr) := srcRead r.src
        if readSize < data.length then
          none
        else
          some { r with
                 buf := writeAt buf1 head1 data
                 head := head1 + data.length
                 start := start1
                 current := current1
                 src := src1
                 err := if r.err = none ∧ rerr ≠ none then rerr else r.err }

/-- Position bookkeeping of `Next`: `Column++`, then on a newline
`Line++; Column = 1`. -/
def advancePos (char : Nat) (p : Position) : Position :=
  if char = 10 then ⟨p.Line + 1, 1⟩ else ⟨p.Line, p.Column + 1⟩

/-- `(*Reader).Next`. -/
def Next (r : Reader) : Option (Nat × Reader) :=
  (fill r).map fun r1 =>
    if r1.head - r1.current ≤ 0 then (EOF, r1)
    else
      let d := decodeRune ((r1.buf.take r1.head).drop r1.current)
      (d.1,
        { r1 with
          history := r1.history ++ [⟨r1.currentPos, r1.current⟩]
          current := r1.current + d.2
          currentPos := advancePos d.1 r1.currentPos })

/-- `(*Reader).Backup`. -/
def Backup : Nat → Reader → Reader
  | 0, r => r
  | n + 1, r =>
    match r.history.getLast? with
    | none => r
    | some snap =>
      Backup n
        { r with
          history := r.history.dropLast
          current := snap.current
          currentPos := snap.currentPos }

/-- `(*Reader).Peek`. -/
def Peek (r : Reader) : Option (Nat × Reader) :=
  (Next r).map fun cr => (cr.1, Backup 1 cr.2)

/-- `(*Reader).Ignore`. -/
def Ignore (r : Reader) : Reader :=
  { r with start := r.current, startPos := r.currentPos, history := [] }

/-- `(*Reader).Emit`. -/
def Emit (r : Reader) : (List Nat × Position) × Reader :=
  (((r.buf.take r.current).drop r.start, r.startPos), Ignore r)

/-- `(*Reader).Err`. -/
def Err (r : Reader) : Option GoErr := r.err

/-- `(*Reader).AcceptFunc`: consume the next rune only if the predicate
holds; the `char != EOF` guard means no `Backup` happens at end of
stream. -/
def AcceptFunc (fn : Nat → Bool) (r : Reader) : Option Reader :=
  (Next r).map fun cr =>
    if cr.1 ≠ EOF ∧ ¬ fn cr.1 then Backup 1 cr.2 else cr.2

/-- `(*Reader).Accept`: membership of the rune in the match set
(`strings.ContainsRune`); the match string is modelled as its rune list. -/
def Accept (match0 : List Nat) (r : Reader) : Option Reader :=
  AcceptFunc (fun char => match0.contains char) r

/-- Modelled from the spec: `AcceptSeq` appears in the repository tests and
in spec section 4.5 but its implementation is not under `src/`.  Spec words:
attempt to consume the exact rune sequence; on any mismatch or premature
end-of-stream, back up by matched-count + 1 and return false; on success the
cursor sits just past the literal.  `matched` counts runes consumed so far. -/
def AcceptSeqAux (matched : Nat) (lit : List Nat) (r : Reader) : Option (Bool × Reader) :=
  match lit with
  | [] => some (true, r)
  | l :: rest =>
    (Next r).bind fun cr =>
      if cr.1 = l then AcceptSeqAux (matched + 1) rest cr.2
      else some (false, Backup (matched + 1) cr.2)

/-- Modelled from the spec: entry point of the literal matcher, starting
with zero matched runes. -/
def AcceptSeq (lit : List Nat) (r : Reader) : Option (Bool × Reader) :=
  AcceptSeqAux 0 lit r

/-- The claim's version of `AcceptFunc` (claim C6 / spec section 4.5): on a
non-matching rune OR at end-of-stream, perform `Backup(1)`.  The source
instead guards the backup with `char != EOF`.  This definition follows the
claim's words and exists only to be compared with `AcceptFunc`. -/
def AcceptFuncClaim (fn : Nat → Bool) (r : Reader) : Option Reader :=
  (Next r).map fun cr =>
    if fn cr.1 ∧ cr.1 ≠ EOF then cr.2 else Backup 1 cr.2

/-- Standard UTF-8 encoding of a scalar value; used to state what "the
original input is valid UTF-8 text" means in the round-trip claim. -/
def encodeChar (c : Nat) : List Nat :=
  if c < 0x80 then [c]
  else if c < 0x800 then [0xC0 + c / 0x40, 0x80 + c % 0x40]
  else if c < 0x10000 then
    [0xE0 + c / 0x1000, 0x80 + c / 0x40 % 0x40, 0x80 + c % 0x40]
  else
    [0xF0 + c / 0x40000, 0x80 + c / 0x1000 % 0x40,
     0x80 + c / 0x40 % 0x40, 0x80 + c % 0x40]

/-- UTF-8 encoding of a rune sequence (what Go's `string(runes)` produces
for valid scalar values). -/
def utf8Encode (cs : List Nat) : List Nat :=
  (cs.map encodeChar).flatten

/-- A Unicode scalar value: below 0x110000 and not a surrogate. -/
def ScalarOk (c : Nat) : Prop :=
  c < 0x110000 ∧ ¬ (0xD800 ≤ c ∧ c ≤ 0xDFFF)

instance (c : Nat) : Decidable (ScalarOk c) := by
  unfold ScalarOk; infer_instance

/-- Byte lists that are the UTF-8 encoding of a sequence of scalar values,
none of which is U+0000.  This is the "input text" hypothesis of the
round-trip claim. -/
inductive ValidText : List Nat → Prop
  | nil : ValidText []
  | cons (c : Nat) (rest : List Nat) :
      ScalarOk c → c ≠ 0 → ValidText rest → ValidText (encodeChar c ++ rest)

/-- Client-side driver: call `Next` repeatedly, collecting returned runes
until the first sentinel value is returned (or fuel runs out, which the
theorems below always rule out); `none` propagates a modelled panic. -/
def collectRunes : Nat → Reader → Option (List Nat)
  | 0, _ => some []
  | fuel + 1, r =>
    (Next r).bind fun cr =>
      if cr.1 = EOF then some []
      else (collectRunes fuel cr.2).map fun cs => cr.1 :: cs

def initState (input : List Nat) : Reader :=
  { buf := input ++ List.replicate (initBufSize - input.length) 0
    history := []
    src := []
    err := none
    startPos := ⟨1, 1⟩
    currentPos := ⟨1, 1⟩
    head := input.length
    start := 0
    current := 0 }

structure Drained (input : List Nat) (r : Reader) : Prop where
  hbuf : r.buf = input ++ List.replicate (initBufSize - input.length) 0
  hhead : r.head = input.length
  hsrc : r.src = []
  hlen : input.length ≤ readSize
  herr : r.err = none ∨ r.err = some GoErr.eof

def c5s : Reader :=
  { buf := [97], history := [], src := [], err := some GoErr.eof,
    startPos := ⟨1, 1⟩, currentPos := ⟨1, 2⟩, head := 1, start := 0, current := 1 }

def c6s : Reader :=
  { buf := [97, 98], history := [], src := [], err := some GoErr.eof,
    startPos := ⟨1, 1⟩, currentPos := ⟨1, 1⟩, head := 2, start := 0, current := 0 }

def c6s2 : Reader :=
  { buf := [97, 98], history := [⟨⟨1, 1⟩, 0⟩], src := [], err := some GoErr.eof,
    startPos := ⟨1, 1⟩, currentPos := ⟨1, 2⟩, head := 2, start := 0, current := 1 }

def c6x : Reader :=
  { buf := [97], history := [⟨⟨1, 1⟩, 0⟩], src := [], err := some GoErr.eof,
    startPos := ⟨1, 1⟩, currentPos := ⟨1, 2⟩, head := 1, start := 0, current := 1 }

def c9s : Reader :=
  { buf := [10, 97], history := [], src := [], err := some GoErr.eof,
    startPos := ⟨1, 1⟩, currentPos := ⟨3, 5⟩, head := 2, start := 0, current := 0 }

def c9s2 : Reader :=
  { buf := [10, 97], history := [⟨⟨3, 5⟩, 0⟩], src := [], err := some GoErr.eof,
    startPos := ⟨1, 1⟩, currentPos := ⟨4, 1⟩, head := 2, start := 0, current := 1 }

def c10s : Reader :=
  { buf := [97, 98], history := [], src := [], err := some GoErr.eof,
    startPos := ⟨1, 1⟩, currentPos := ⟨1, 1⟩, head := 2, start := 0, current := 1 }

def c8s : Reader :=
  { buf := [98, 99], history := [], src := [], err := some GoErr.eof,
    startPos := ⟨1, 1⟩, currentPos := ⟨1, 1⟩, head := 2, start := 0, current := 0 }

def c8s2 : Reader :=
  { buf := [98, 99], history := [⟨⟨1, 1⟩, 0⟩, ⟨⟨1, 2⟩, 1⟩], src := [],
    err := some GoErr.eof, startPos := ⟨1, 1⟩, currentPos := ⟨1, 3⟩,
    head := 2, start := 0, current := 2 }

def c8x : Reader :=
  { buf := [97, 98], history := [⟨⟨1, 1⟩, 0⟩], src := [], err := some GoErr.eof,
    startPos := ⟨1, 1⟩, currentPos := ⟨1, 2⟩, head := 2, start := 0, current := 1 }

/-- The Reader state reached from `NewReader` on a 4097-byte all-ASCII source
after 4094 `Next` calls: two reads have been issued (4096 bytes, then the
final 1 byte), `head = 4097`, `current = 4094`, no `Ignore` was called.  The
next `Next` drives `fill` into the slide branch with `start = 0`, where the
read slice `buf[4097 : 4097+4096]` exceeds the 8192-byte buffer. -/
def c3state : Reader :=
  { buf := List.replicate 4097 97 ++ List.replicate 4095 0,
    history := (List.range 4094).map (fun i => ⟨⟨1, i + 1⟩, i⟩),
    src := [], err := none, startPos := ⟨1, 1⟩, currentPos := ⟨1, 4095⟩,
    head := 4097, start := 0, current := 4094 }

/-- The Reader state reached from `NewReader` on a 12288-byte all-ASCII
source after `Next` ×4500, `Ignore`, then `Next` ×3690: the 3690th of those
`Next` calls slid the buffer (`head 8192 → 3692`, `current 8189 → 3689`,
`start 4500 → 0`) and read 4096 more bytes (`head = 7788`), but the 3689
history snapshots taken before the slide still hold their old, un-rebased
offsets 4500..8188.  Only the final snapshot (offset 3689) is in the new
coordinate system. -/
def c4state : Reader :=
  { buf := List.replicate 8192 97,
    history := (List.range 3689).map (fun i => ⟨⟨1, 4501 + i⟩, 4500 + i⟩)
      ++ [⟨⟨1, 8190⟩, 3689⟩],
    src := [], err := none, startPos := ⟨1, 4501⟩, currentPos := ⟨1, 8191⟩,
    head := 7788, start := 0, current := 3690 }

example : decodeRune [0x61] = (0x61, 1) := by decide

example : decodeRune [0xC3, 0xA9] = (0xE9, 2) := by decide

example : decodeRune [0xE4, 0xB8, 0xAD] = (0x4E2D, 3) := by decide

example : decodeRune [0xF0, 0x9F, 0x98, 0x80] = (0x1F600, 4) := by decide

example : decodeRune [0xFF, 0x20] = (RuneError, 1) := by decide

example : decodeRune [0xED, 0xA0, 0x80] = (RuneError, 1) := by decide

example : decodeRune [0xF4, 0x90, 0x80, 0x80] = (RuneError, 1) := by decide

/-- Decoding an encoded scalar at the front of any byte list recovers the
scalar and its width: `utf8.DecodeRune` is a left inverse of encoding. -/
theorem decodeRune_encodeChar (c : Nat) (h : ScalarOk c) (rest : List Nat) :
    decodeRune (encodeChar c ++ rest) = (c, (encodeChar c).length) := by
  obtain ⟨hlt, hsur⟩ := h
  by_cases h1 : c < 0x80
  · simp [encodeChar, h1, decodeRune]
  · by_cases h2 : c < 0x800
    · simp only [encodeChar, if_neg h1, if_pos h2, List.cons_append, List.nil_append,
        decodeRune, List.length_cons, List.length_nil]
      rw [if_neg (by omega), if_neg (by omega), if_pos (by omega), if_pos (by omega)]
      simp only [Prod.mk.injEq, and_true]
      omega
    · by_cases h3 : c < 0x10000
      · simp only [encodeChar, if_neg h1, if_neg h2, if_pos h3, List.cons_append,
          List.nil_append, decodeRune, List.length_cons, List.length_nil]
        rw [if_neg (by omega), if_neg (by omega), if_neg (by omega), if_pos (by omega)]
        rw [if_pos ?hb1, if_pos (by omega)]
        case hb1 =>
          constructor
          · split_ifs with he <;> omega
          · split_ifs with he <;> omega
        simp only [Prod.mk.injEq, and_true]
        omega
      · simp only [encodeChar, if_neg h1, if_neg h2, if_neg h3, List.cons_append,
          List.nil_append, decodeRune, List.length_cons, List.length_nil]
        rw [if_neg (by omega), if_neg (by omega), if_neg (by omega), if_neg (by omega),
          if_pos (by omega)]
        rw [if_pos ?hb1, if_pos (by omega), if_pos (by omega)]
        case hb1 =>
          constructor
          · split_ifs with he <;> omega
          · split_ifs with he <;> omega
        simp only [Prod.mk.injEq, and_true]
        omega

theorem encodeChar_length_pos (c : Nat) : 1 ≤ (encodeChar c).length := by
  unfold encodeChar
  split_ifs <;> simp

theorem encodeChar_ne_nil (c : Nat) : encodeChar c ≠ [] := by
  intro h
  have := encodeChar_length_pos c
  rw [h] at this
  simp at this

theorem utf8Encode_nil : utf8Encode [] = [] := rfl

theorem utf8Encode_cons (c : Nat) (cs : List Nat) :
    utf8Encode (c :: cs) = encodeChar c ++ utf8Encode cs := by
  simp [utf8Encode]

theorem initBuf_length (input : List Nat) (hlen : input.length ≤ readSize) :
    (input ++ List.replicate (initBufSize - input.length) 0).length = initBufSize := by
  rw [List.length_append, List.length_replicate]
  simp only [readSize, initBufSize] at hlen ⊢
  omega

theorem fill_eof (r : Reader) (herr : r.err = some GoErr.eof) (hbuf : r.buf ≠ []) :
    fill r = some r := by
  have hb : r.buf.isEmpty = false := List.isEmpty_eq_false.mpr hbuf
  obtain ⟨buf, history, src, err, startPos0, currentPos0, head, start, current⟩ := r
  simp only at herr hb
  subst herr
  simp [fill, hb]

theorem fill_drained {input : List Nat} {r : Reader} (h : Drained input r) :
    ∃ e, fill r = some { r with err := e } ∧
      (e = none ∨ e = some GoErr.eof) := by
  obtain ⟨hbuf, hhead, hsrc, hlen, herr⟩ := h
  have hblen : r.buf.length = initBufSize := by rw [hbuf]; exact initBuf_length input hlen
  obtain ⟨buf, history, src, err, startPos0, currentPos0, head, start, current⟩ := r
  simp only at hbuf hhead hsrc herr hblen
  subst hbuf hhead hsrc
  have hb : (input ++ List.replicate (initBufSize - input.length) 0).isEmpty = false := by
    rw [List.isEmpty_eq_false]
    intro hc
    rw [hc] at hblen
    simp [initBufSize, readSize] at hblen
  have h4096 : input.length ≤ 4096 := by simpa [readSize] using hlen
  rcases herr with he | he
  · subst he
    by_cases hc : UTFMax ≤ input.length - current
    · exact ⟨none, by simp [fill, hb, hc], Or.inl rfl⟩
    · refine ⟨some GoErr.eof, ?_, Or.inr rfl⟩
      simp only [fill, hb, Bool.false_eq_true, if_false]
      rw [if_neg (by simp [hc])]
      rw [if_pos (by rw [hblen]; simp only [readSize, initBufSize] at hlen ⊢; omega),
        Option.some_bind]
      rw [if_neg (by rw [hblen]; simp only [readSize, initBufSize] at hlen ⊢; omega)]
      simp only [srcRead]
      rw [if_neg (by simp [readSize])]
      simp only [writeAt, List.length_nil, Nat.add_zero, List.append_nil,
        List.take_append_drop]
      simp
  · subst he
    exact ⟨some GoErr.eof, fill_eof _ rfl (List.isEmpty_eq_false.mp hb), Or.inr rfl⟩

theorem fill_NewReader (input : List Nat) (hne : input ≠ [])
    (hlen : input.length ≤ readSize) :
    fill (NewReader input) = some (initState input) := by
  obtain ⟨b, bs, rfl⟩ : ∃ b bs, input = b :: bs := by
    cases input with
    | nil => exact absurd rfl hne
    | cons b bs => exact ⟨b, bs, rfl⟩
  simp only [fill, NewReader, srcRead, writeAt, initState, List.isEmpty_nil,
    if_true, List.length_replicate, List.length_cons]
  rw [if_neg (by simp [UTFMax]), if_pos (by simp [readSize, initBufSize]),
    Option.some_bind]
  simp only [List.length_replicate]
  rw [if_neg (by simp [readSize, initBufSize])]
  rw [if_neg (by simp only [List.take_of_length_le hlen]; omega)]
  simp only [List.take_of_length_le hlen, List.drop_eq_nil_of_le hlen,
    List.take_zero, List.drop_replicate, List.nil_append, Nat.zero_add,
    List.length_cons]
  simp

theorem collect_drained {input : List Nat} {rest : List Nat} (hv : ValidText rest) :
    ∀ (fuel : Nat) (r : Reader), Drained input r →
      rest.length < fuel →
      r.current = input.length - rest.length →
      rest.length ≤ input.length →
      input.drop r.current = rest →
      (collectRunes fuel r).map utf8Encode = some rest := by
  induction hv with
  | nil =>
    intro fuel r hd hfuel hcur hle hdrop
    obtain ⟨f, rfl⟩ : ∃ f, fuel = f + 1 := ⟨fuel - 1, by omega⟩
    obtain ⟨e, hfill, he⟩ := fill_drained hd
    have hcur' : r.current = input.length := by simp at hcur; omega
    have hz : r.head - r.current ≤ 0 := by rw [hd.hhead, hcur']; omega
    simp only [collectRunes, Next, hfill, Option.map_some', Option.some_bind]
    simp [hz, EOF, utf8Encode]
  | cons c rest hsc hc0 hvrest ih =>
    intro fuel r hd hfuel hcur hle hdrop
    obtain ⟨f, rfl⟩ : ∃ f, fuel = f + 1 := ⟨fuel - 1, by omega⟩
    obtain ⟨e, hfill, he⟩ := fill_drained hd
    have henc1 : 1 ≤ (encodeChar c).length := encodeChar_length_pos c
    have hlenapp : (encodeChar c ++ rest).length = (encodeChar c).length + rest.length :=
      List.length_append _ _
    have hbytes : (r.buf.take r.head).drop r.current = encodeChar c ++ rest := by
      rw [hd.hbuf, hd.hhead, List.take_left' rfl, hdrop]
    have hdec : decodeRune ((r.buf.take r.head).drop r.current)
        = (c, (encodeChar c).length) := by
      rw [hbytes]; exact decodeRune_encodeChar c hsc rest
    have hgt : ¬ (r.head - r.current ≤ 0) := by
      rw [hd.hhead]
      rw [hlenapp] at hcur hle
      omega
    simp only [collectRunes, Next, hfill, Option.map_some', Option.some_bind,
      if_neg hgt, hdec]
    rw [if_neg (by simpa [EOF] using hc0)]
    have ihx := ih f
      { r with
        err := e
        history := r.history ++ [⟨r.currentPos, r.current⟩]
        current := r.current + (encodeChar c).length
        currentPos := advancePos c r.currentPos }
      ⟨by simp [hd.hbuf], by simp [hd.hhead], by simp [hd.hsrc], hd.hlen, by simpa using he⟩
      (by rw [hlenapp] at hfuel; omega)
      (by simp only; rw [hlenapp] at hcur hle; omega)
      (by rw [hlenapp] at hle; omega)
      (by rw [← List.drop_drop, hdrop]; exact List.drop_left _ _)
    obtain ⟨cs, hcs, hcse⟩ : ∃ cs, collectRunes f
        { r with
          err := e
          history := r.history ++ [⟨r.currentPos, r.current⟩]
          current := r.current + (encodeChar c).length
          currentPos := advancePos c r.currentPos } = some cs ∧ utf8Encode cs = rest := by
      cases hcr : collectRunes f
          { r with
            err := e
            history := r.history ++ [⟨r.currentPos, r.current⟩]
            current := r.current + (encodeChar c).length
            currentPos := advancePos c r.currentPos } with
      | none => rw [hcr] at ihx; simp at ihx
      | some cs =>
        rw [hcr] at ihx
        simp only [Option.map_some', Option.some.injEq] at ihx
        exact ⟨cs, rfl, ihx⟩
    rw [hcs]
    simp [utf8Encode_cons, hcse]

theorem map_cons_encode (o : Option (List Nat)) (c : Nat) (rest : List Nat)
    (h : o.map utf8Encode = some rest) :
    (o.map (fun cs => c :: cs)).map utf8Encode = some (encodeChar c ++ rest) := by
  cases o with
  | none => simp at h
  | some cs =>
    simp only [Option.map_some', Option.some.injEq] at h ⊢
    rw [utf8Encode_cons, h]

theorem writeAt_nil (b : List Nat) (i : Nat) : writeAt b i [] = b := by
  simp [writeAt, List.take_append_drop]

theorem fill_NewReader_nil : fill (NewReader []) = some
    { buf := List.replicate initBufSize 0, history := [], src := [],
      err := some GoErr.eof, startPos := ⟨1, 1⟩, currentPos := ⟨1, 1⟩,
      head := 0, start := 0, current := 0 } := by
  simp only [fill]
  rw [if_neg (by decide), if_pos (show (NewReader []).buf.isEmpty = true from rfl)]
  generalize hB : List.replicate initBufSize 0 = B
  have hBlen : B.length = initBufSize := by rw [← hB, List.length_replicate]
  rw [hBlen]
  rw [if_pos (show readSize ≤ initBufSize - (NewReader []).head by decide)]
  rw [Option.some_bind]
  simp only [srcRead, hBlen, writeAt_nil]
  rw [if_neg (by decide), if_neg (by decide), if_pos (by decide)]
  rfl

/-- C1 (amended): for every input that is valid UTF-8 text, contains no
U+0000, and is at most readSize bytes long, concatenating the UTF-8
encodings of the runes returned by successive `Next` calls on a fresh
Reader, up to the first sentinel return, reproduces the input exactly,
and no call panics. -/
theorem C1_roundtrip (input : List Nat) (hv : ValidText input)
    (hlen : input.length ≤ readSize) :
    (collectRunes (input.length + 1) (NewReader input)).map utf8Encode = some input := by
  cases hv with
  | nil =>
    simp only [List.length_nil, Nat.zero_add, collectRunes, Next, fill_NewReader_nil,
      Option.map_some', Option.some_bind, Nat.sub_zero]
    simp [EOF, utf8Encode]
  | cons c rest hsc hc0 hvrest =>
    have hne : encodeChar c ++ rest ≠ [] := by
      intro hx
      exact encodeChar_ne_nil c (List.append_eq_nil.mp hx).1
    have hfill := fill_NewReader _ hne hlen
    have henc1 : 1 ≤ (encodeChar c).length := encodeChar_length_pos c
    have hlenapp : (encodeChar c ++ rest).length
        = (encodeChar c).length + rest.length := List.length_append _ _
    have hnext : Next (NewReader (encodeChar c ++ rest)) = some (c,
        { buf := (encodeChar c ++ rest)
            ++ List.replicate (initBufSize - (encodeChar c ++ rest).length) 0
          history := [⟨⟨1, 1⟩, 0⟩]
          src := []
          err := none
          startPos := ⟨1, 1⟩
          currentPos := advancePos c ⟨1, 1⟩
          head := (encodeChar c ++ rest).length
          start := 0
          current := (encodeChar c).length }) := by
      simp only [Next, hfill, Option.map_some', initState, Nat.sub_zero]
      rw [if_neg (by rw [hlenapp]; omega)]
      rw [List.drop_zero, List.take_left' rfl, decodeRune_encodeChar c hsc rest]
      simp
    simp only [collectRunes, hnext, Option.some_bind]
    rw [if_neg (by simpa [EOF] using hc0)]
    apply map_cons_encode
    refine collect_drained hvrest _ _ ⟨rfl, rfl, rfl, hlen, Or.inl rfl⟩ ?_ ?_ ?_ ?_
    · rw [hlenapp]; omega
    · simp only
      rw [hlenapp]; omega
    · rw [hlenapp]; omega
    · simp only
      exact List.drop_left _ _

theorem collectRunes_succ (fuel : Nat) (r : Reader) :
    collectRunes (fuel + 1) r = (Next r).bind fun cr =>
      if cr.1 = EOF then some [] else (collectRunes fuel cr.2).map fun cs => cr.1 :: cs := rfl

/-- C1 counterexample: for the one-byte input 0xFF (not valid UTF-8),
`Next` decodes the replacement rune U+FFFD, so the concatenation of the
returned runes re-encodes to EF BF BD, not 0xFF: the round-trip claim
fails for arbitrary byte streams. -/
theorem C1_counterexample :
    (collectRunes 2 (NewReader [255])).map utf8Encode ≠ some [255] := by
  have hfill := fill_NewReader [255] (by decide) (by decide)
  have hnext : Next (NewReader [255]) = some (RuneError,
      { buf := [255] ++ List.replicate (initBufSize - 1) 0
        history := [⟨⟨1, 1⟩, 0⟩]
        src := []
        err := none
        startPos := ⟨1, 1⟩
        currentPos := advancePos RuneError ⟨1, 1⟩
        head := 1
        start := 0
        current := 1 }) := by
    simp only [Next, hfill, Option.map_some', initState, Nat.sub_zero]
    rw [if_neg (by decide)]
    rw [List.drop_zero, List.take_left' rfl,
      show decodeRune [255] = (RuneError, 1) from by decide]
    simp
  rw [show (2 : Nat) = 1 + 1 from rfl, collectRunes_succ, hnext, Option.some_bind]
  rw [if_neg (by decide)]
  have hrest := @collect_drained [255] [] ValidText.nil 1
    { buf := [255] ++ List.replicate (initBufSize - 1) 0
      history := [⟨⟨1, 1⟩, 0⟩]
      src := []
      err := none
      startPos := ⟨1, 1⟩
      currentPos := advancePos RuneError ⟨1, 1⟩
      head := 1
      start := 0
      current := 1 }
    ⟨rfl, rfl, rfl, by decide, Or.inl rfl⟩ (by decide) (by decide) (by decide) (by decide)
  rw [map_cons_encode _ _ _ hrest]
  decide

/-- C1 witness: the amended round-trip theorem applied to the concrete
one-byte input "a". -/
theorem C1_roundtrip_witness :
    (collectRunes 2 (NewReader [97])).map utf8Encode = some [97] := by
  have hv : ValidText [97] := by
    have h := ValidText.cons 97 [] (by decide) (by decide) ValidText.nil
    rwa [show encodeChar 97 ++ [] = [97] from by decide] at h
  exact C1_roundtrip [97] hv (by decide)

theorem fill_frame (r s1 : Reader) (h : fill r = some s1) :
    s1.history = r.history ∧ s1.currentPos = r.currentPos ∧ s1.startPos = r.startPos := by
  unfold fill at h
  by_cases hc : r.err = some GoErr.eof ∨ UTFMax ≤ r.head - r.current
  · rw [if_pos hc] at h
    simp only [Option.some.injEq] at h
    subst h
    exact ⟨rfl, rfl, rfl⟩
  · rw [if_neg hc, Option.bind_eq_some] at h
    obtain ⟨a, -, hf⟩ := h
    obtain ⟨buf1, head1, start1, current1⟩ := a
    rcases hsr : srcRead r.src with ⟨data, src1, rerr⟩
    rw [hsr] at hf
    dsimp only at hf
    split at hf
    · exact absurd hf (by simp)
    · split at hf
      · exact absurd hf (by simp)
      · simp only [Option.some.injEq] at hf
        subst hf
        exact ⟨rfl, rfl, rfl⟩

theorem Next_eq_eof (r s1 : Reader) (h : fill r = some s1) (hge : s1.head ≤ s1.current) :
    Next r = some (EOF, s1) := by
  simp only [Next, h, Option.map_some']
  rw [if_pos (by omega)]

theorem Next_decode (r s1 : Reader) (h : fill r = some s1) (hlt : s1.current < s1.head) :
    Next r = some ((decodeRune ((s1.buf.take s1.head).drop s1.current)).1,
      { s1 with
        history := s1.history ++ [⟨s1.currentPos, s1.current⟩],
        current := s1.current + (decodeRune ((s1.buf.take s1.head).drop s1.current)).2,
        currentPos := advancePos (decodeRune ((s1.buf.take s1.head).drop s1.current)).1
          s1.currentPos }) := by
  simp only [Next, h, Option.map_some']
  rw [if_neg (by omega)]

theorem Backup_one_cancel (s1 : Reader) (c' : Nat) (p' : Position) :
    Backup 1 { s1 with
      history := s1.history ++ [⟨s1.currentPos, s1.current⟩],
      current := c',
      currentPos := p' } = s1 := by
  simp only [Backup, List.getLast?_concat, List.dropLast_concat]

/-- Precise drained fill: the only state change is the sticky error
flipping to `io.EOF` when fewer than `UTFMax` bytes remain. -/
theorem fill_drained_eq {input : List Nat} {r : Reader} (h : Drained input r) :
    fill r = some { r with
      err := if UTFMax ≤ r.head - r.current then r.err else some GoErr.eof } := by
  obtain ⟨hbuf, hhead, hsrc, hlen, herr⟩ := h
  have hblen : r.buf.length = initBufSize := by
    rw [hbuf]; exact initBuf_length input hlen
  obtain ⟨buf, history, src, err, startPos0, currentPos0, head, start, current⟩ := r
  simp only at hbuf hhead hsrc herr hblen ⊢
  subst hbuf hhead hsrc
  have hb : (input ++ List.replicate (initBufSize - input.length) 0).isEmpty = false := by
    rw [List.isEmpty_eq_false]
    intro hc
    rw [hc] at hblen
    simp [initBufSize, readSize] at hblen
  rcases herr with he | he
  · subst he
    by_cases hc : UTFMax ≤ input.length - current
    · rw [if_pos hc]
      simp [fill, hb, hc]
    · rw [if_neg hc]
      simp only [fill, hb, Bool.false_eq_true, if_false]
      rw [if_neg (by simp [hc])]
      rw [if_pos (by rw [hblen]; simp only [readSize, initBufSize] at hlen ⊢; omega),
        Option.some_bind]
      rw [if_neg (by rw [hblen]; simp only [readSize, initBufSize] at hlen ⊢; omega)]
      simp only [srcRead]
      rw [if_neg (by simp [readSize])]
      simp only [writeAt, List.length_nil, Nat.add_zero, List.append_nil,
        List.take_append_drop]
      simp
  · subst he
    rw [fill_eof _ rfl (List.isEmpty_eq_false.mp hb)]
    simp only [ite_self]

/-- C5 (amended): `Next` returns the sentinel value while leaving the
post-fill state untouched (consuming nothing) exactly when no bytes remain
between `current` and `head` after the fill step.  The original claim also
said the sentinel is distinguished from every valid scalar; that part is
false, since `EOF` is the rune 0 = U+0000 (see the counterexample). -/
theorem C5_sentinel_amended (r s1 : Reader) (h : fill r = some s1) :
    Next r = some (EOF, s1) ↔ s1.head ≤ s1.current := by
  constructor
  · intro hn
    by_contra hgt
    have hlt : s1.current < s1.head := by omega
    have hd := Next_decode r s1 h hlt
    rw [hn] at hd
    simp only [Option.some.injEq, Prod.mk.injEq] at hd
    have hh := congrArg (fun s : Reader => s.history.length) hd.2
    simp only [List.length_append, List.length_cons, List.length_nil] at hh
    omega
  · exact Next_eq_eof r s1 h

/-- C5 witness: the amended sentinel theorem applied to a concrete
exhausted Reader. -/
theorem C5_witness : Next c5s = some (EOF, c5s) :=
  (C5_sentinel_amended c5s c5s (by decide)).mpr (by decide)

/-- C5 counterexample: on input 0x00 0x61 the first `Next` returns the
value 0 = `EOF` while a byte was consumed (`current` becomes 1) and bytes
remain (`head` is 2): the sentinel is confused with a decoded NUL, so
`Next` returning the sentinel value does not imply exhaustion. -/
theorem C5_counterexample :
    (Next (NewReader [0, 97])).map (fun cr => (cr.1, cr.2.current, cr.2.head))
      = some (EOF, 1, 2) := by
  have hfill := fill_NewReader [0, 97] (by decide) (by decide)
  simp only [Next, hfill, Option.map_some', initState, Nat.sub_zero]
  rw [if_neg (by decide)]
  rw [List.drop_zero, List.take_left' rfl,
    show decodeRune [0, 97] = (0, 1) from by decide]
  simp [EOF]

/-- C6 (amended): `AcceptFunc` (and `Accept`, which is `AcceptFunc` of a
membership test) consumes exactly one rune when the decoded rune satisfies
the predicate; on a decoded non-matching rune `Backup 1` restores the
post-fill pre-call cursor exactly; at end-of-stream no backup is performed
and the post-fill state is returned unchanged.  The Go methods return no
boolean. -/
theorem C6_accept_amended (r s1 : Reader) (f : Nat → Bool) (h : fill r = some s1) :
    (s1.head ≤ s1.current → AcceptFunc f r = some s1)
  ∧ (∀ c s2, Next r = some (c, s2) → c ≠ EOF →
      (f c = true → AcceptFunc f r = some s2)
    ∧ (f c = false → AcceptFunc f r = some s1)) := by
  constructor
  · intro hge
    have hn := Next_eq_eof r s1 h hge
    simp only [AcceptFunc, hn, Option.map_some']
    rw [if_neg (by simp [EOF])]
  · intro c s2 hn hc
    by_cases hge : s1.head ≤ s1.current
    · rw [Next_eq_eof r s1 h hge] at hn
      simp only [Option.some.injEq, Prod.mk.injEq] at hn
      exact absurd hn.1.symm hc
    · have hlt : s1.current < s1.head := by omega
      have hd := Next_decode r s1 h hlt
      rw [hn] at hd
      simp only [Option.some.injEq, Prod.mk.injEq] at hd
      obtain ⟨hc1, hs2⟩ := hd
      constructor
      · intro hf
        simp only [AcceptFunc, hn, Option.map_some']
        rw [if_neg (by simp [hf])]
      · intro hf
        simp only [AcceptFunc, hn, Option.map_some']
        rw [if_pos ⟨hc, by simp [hf]⟩, hs2]
        rw [Backup_one_cancel]

/-- C6 witness: the amended Accept theorem applied to a concrete drained
Reader and the predicate (= 97). -/
theorem C6_witness : AcceptFunc (fun c => decide (c = 97)) c6s = some c6s2 :=
  ((C6_accept_amended c6s c6s (fun c => decide (c = 97)) (by decide)).2
    97 c6s2 (by decide) (by decide)).1 (by decide)

/-- C6 counterexample: at the drained state `c6x` (one rune already
consumed, stream exhausted), the AcceptFunc of the source differs from the
claim-version that performs `Backup 1` at end-of-stream, and that
claim-version moves the cursor away from its pre-call offset, so the claim
as stated contradicts itself and the code. -/
theorem C6_counterexample :
    AcceptFunc (fun _ => true) c6x ≠ AcceptFuncClaim (fun _ => true) c6x
  ∧ (AcceptFuncClaim (fun _ => true) c6x).map (fun s => s.current)
      ≠ some c6x.current := by
  decide

/-- C7 (amended): `Peek` is `Next` followed by `Backup 1`.  When the
upcoming rune exists, `Peek` returns it and the state is exactly the
post-fill state: no net change to cursor offset, position or history.  At
end-of-stream the `Backup 1` is still performed, yielding `Backup 1` of
the post-fill state instead of leaving it unchanged. -/
theorem C7_peek_amended (r s1 : Reader) (h : fill r = some s1) :
    (∀ c s2, Next r = some (c, s2) → c ≠ EOF → Peek r = some (c, s1))
  ∧ (s1.head ≤ s1.current → Peek r = some (EOF, Backup 1 s1)) := by
  constructor
  · intro c s2 hn hc
    by_cases hge : s1.head ≤ s1.current
    · rw [Next_eq_eof r s1 h hge] at hn
      simp only [Option.some.injEq, Prod.mk.injEq] at hn
      exact absurd hn.1.symm hc
    · have hlt : s1.current < s1.head := by omega
      have hd := Next_decode r s1 h hlt
      rw [hn] at hd
      simp only [Option.some.injEq, Prod.mk.injEq] at hd
      obtain ⟨hc1, hs2⟩ := hd
      simp only [Peek, hn, Option.map_some']
      rw [hs2, Backup_one_cancel]
  · intro hge
    simp only [Peek, Next_eq_eof r s1 h hge, Option.map_some']

/-- C7 witness: the amended Peek theorem applied to a concrete drained
Reader with one buffered rune. -/
theorem C7_witness : Peek c6s = some (97, c6s) :=
  (C7_peek_amended c6s c6s (by decide)).1 97 c6s2 (by decide) (by decide)

/-- C7 counterexample: at the drained state `c6x` (history holds one
consumption, stream exhausted), `Peek` returns the sentinel but pops the
history entry, so Peek at end-of-stream does not leave the Reader
unchanged. -/
theorem C7_counterexample :
    (Peek c6x).map (fun cr => cr.2.history.length) = some 0
  ∧ c6x.history.length = 1 := by
  decide

/-- C9: `Line` and `Column` both start at 1 on a fresh Reader; every
consumption (a `Next` that pushes a history snapshot) of a newline rune
increments `Line` and resets `Column` to 1, and every other consumption
increments `Column` leaving `Line` unchanged. -/
theorem C9_position_law :
    (∀ input : List Nat,
      (NewReader input).currentPos = ⟨1, 1⟩ ∧ (NewReader input).startPos = ⟨1, 1⟩)
  ∧ (∀ r c s2, Next r = some (c, s2) → r.history.length < s2.history.length →
      s2.currentPos = if c = 10 then ⟨r.currentPos.Line + 1, 1⟩
        else ⟨r.currentPos.Line, r.currentPos.Column + 1⟩) := by
  constructor
  · intro input
    exact ⟨rfl, rfl⟩
  · intro r c s2 hn hlen
    obtain ⟨s1, h⟩ : ∃ s1, fill r = some s1 := by
      cases hf : fill r with
      | none => rw [Next, hf] at hn; simp at hn
      | some s1 => exact ⟨s1, rfl⟩
    obtain ⟨hhist, hpos, -⟩ := fill_frame r s1 h
    by_cases hge : s1.head ≤ s1.current
    · rw [Next_eq_eof r s1 h hge] at hn
      simp only [Option.some.injEq, Prod.mk.injEq] at hn
      obtain ⟨-, hs2⟩ := hn
      rw [← hs2, hhist] at hlen
      omega
    · have hlt : s1.current < s1.head := by omega
      have hd := Next_decode r s1 h hlt
      rw [hn] at hd
      simp only [Option.some.injEq, Prod.mk.injEq] at hd
      obtain ⟨hc1, hs2⟩ := hd
      rw [hs2]
      simp only [← hc1, hpos, advancePos]

/-- C9 witness: the position law applied to a concrete Reader consuming a
newline at position line 3, column 5. -/
theorem C9_witness : c9s2.currentPos = ⟨4, 1⟩ := by
  have h := C9_position_law.2 c9s 10 c9s2 (by decide) (by decide)
  simpa using h

/-- C10: once io.EOF is recorded in the sticky error field, `fill` is the
identity (no further reads: the source, `head` and the error are
unchanged), `Next` still decodes and consumes the bytes buffered between
`current` and `head`, and it returns the sentinel without consuming only
once `current` reaches `head`, while `Err` keeps reporting io.EOF. -/
theorem C10_drain_after_eof (r : Reader) (h : r.err = some GoErr.eof)
    (hbuf : r.buf ≠ []) :
    fill r = some r
  ∧ (r.head ≤ r.current → Next r = some (EOF, r))
  ∧ (r.current < r.head → ∀ c s2, Next r = some (c, s2) →
      s2.src = r.src ∧ s2.head = r.head ∧ s2.err = some GoErr.eof
      ∧ s2.history.length = r.history.length + 1
      ∧ c = (decodeRune ((r.buf.take r.head).drop r.current)).1
      ∧ s2.current = r.current + (decodeRune ((r.buf.take r.head).drop r.current)).2) := by
  have hfe := fill_eof r h hbuf
  refine ⟨hfe, Next_eq_eof r r hfe, ?_⟩
  intro hlt c s2 hn
  have hd := Next_decode r r hfe hlt
  rw [hn] at hd
  simp only [Option.some.injEq, Prod.mk.injEq] at hd
  obtain ⟨hc1, hs2⟩ := hd
  subst hs2
  refine ⟨rfl, rfl, h, by simp, hc1, rfl⟩

/-- C10 witness: the drain theorem applied to a concrete Reader with
io.EOF recorded and one byte still buffered. -/
theorem C10_witness : fill c10s = some c10s :=
  (C10_drain_after_eof c10s rfl (by decide)).1

theorem Backup_empty (n : Nat) (r : Reader) (h : r.history = []) : Backup n r = r := by
  cases n with
  | zero => rfl
  | succ n => simp [Backup, h]

theorem Backup_add (a b : Nat) (r : Reader) :
    Backup (a + b) r = Backup b (Backup a r) := by
  induction a generalizing r with
  | zero => rw [Nat.zero_add]; rfl
  | succ a ih =>
    rw [Nat.succ_add]
    show Backup (a + b + 1) r = Backup b (Backup (a + 1) r)
    simp only [Backup]
    cases hg : r.history.getLast? with
    | none =>
      simp only [Backup]
      exact (Backup_empty b r (List.getLast?_eq_none_iff.mp hg)).symm
    | some snap => exact ih _

theorem Backup_succ_cancel (s1 : Reader) (n : Nat) (c' : Nat) (p' : Position) :
    Backup (n + 1) { s1 with
      history := s1.history ++ [⟨s1.currentPos, s1.current⟩],
      current := c',
      currentPos := p' } = Backup n s1 := by
  simp only [Backup, List.getLast?_concat, List.dropLast_concat]

theorem acceptSeqAux_drained :
    ∀ (lit : List Nat), (∀ l ∈ lit, l ≠ 0) →
    ∀ (matched : Nat) (s s0 : Reader), s.err = some GoErr.eof → s.buf ≠ [] →
      Backup matched s = s0 →
      s.history.length = s0.history.length + matched →
      ∀ b s', AcceptSeqAux matched lit s = some (b, s') →
        (b = true → s'.history.length = s0.history.length + matched + lit.length)
      ∧ (b = false → s' = s0 ∨ s' = Backup 1 s0) := by
  intro lit
  induction lit with
  | nil =>
    intro h0' matched s s0 herr hbuf hb hh b s' hacc
    simp only [AcceptSeqAux, Option.some.injEq, Prod.mk.injEq] at hacc
    obtain ⟨hb1, hs⟩ := hacc
    subst hb1
    subst hs
    refine ⟨fun _ => ?_, fun hfalse => by simp at hfalse⟩
    simp only [List.length_nil]
    omega
  | cons l rest ih =>
    intro h0' matched s s0 herr hbuf hb hh b s' hacc
    have hl0 : l ≠ 0 := h0' l (List.mem_cons_self _ _)
    have hfe := fill_eof s herr hbuf
    simp only [AcceptSeqAux] at hacc
    by_cases hge : s.head ≤ s.current
    · rw [Next_eq_eof s s hfe hge, Option.some_bind] at hacc
      rw [if_neg (by simpa [EOF] using Ne.symm hl0)] at hacc
      simp only [Option.some.injEq, Prod.mk.injEq] at hacc
      obtain ⟨hb1, hs⟩ := hacc
      subst hb1
      refine ⟨fun htrue => by simp at htrue, fun _ => ?_⟩
      right
      rw [← hs, Backup_add matched 1 s, hb]
    · have hlt : s.current < s.head := by omega
      have hd := Next_decode s s hfe hlt
      rw [hd, Option.some_bind] at hacc
      by_cases hcl : (decodeRune ((s.buf.take s.head).drop s.current)).1 = l
      · rw [if_pos hcl] at hacc
        have hres := ih (fun x hx => h0' x (List.mem_cons_of_mem _ hx)) (matched + 1)
          { s with
            history := s.history ++ [⟨s.currentPos, s.current⟩],
            current := s.current + (decodeRune ((s.buf.take s.head).drop s.current)).2,
            currentPos := advancePos (decodeRune ((s.buf.take s.head).drop s.current)).1
              s.currentPos }
          s0 herr hbuf
          (by rw [Backup_succ_cancel, hb])
          (by simp only [List.length_append, List.length_cons, List.length_nil]; omega)
          b s' hacc
        refine ⟨fun htrue => ?_, hres.2⟩
        have := hres.1 htrue
        simp only [List.length_cons]
        omega
      · rw [if_neg hcl] at hacc
        simp only [Option.some.injEq, Prod.mk.injEq] at hacc
        obtain ⟨hb1, hs⟩ := hacc
        subst hb1
        refine ⟨fun htrue => by simp at htrue, fun _ => ?_⟩
        left
        rw [← hs, Backup_succ_cancel, hb]

/-- C8 (amended; AcceptSeq is modelled from the spec, its code is not
under src/): for a NUL-free literal and a Reader whose sticky error is
already io.EOF, the empty literal succeeds with no change; success grows
the history by exactly the literal length; failure leaves the Reader
either exactly at its pre-call state (decoded-rune mismatch) or at
`Backup 1` of it (premature end-of-stream, where backing up
matched-count + 1 pops one snapshot this call never pushed). -/
theorem C8_acceptSeq_amended (lit : List Nat) (s : Reader) (h0 : ∀ l ∈ lit, l ≠ 0)
    (herr : s.err = some GoErr.eof) (hbuf : s.buf ≠ []) :
    (lit = [] → AcceptSeq lit s = some (true, s))
  ∧ ∀ b s', AcceptSeq lit s = some (b, s') →
      (b = true → s'.history.length = s.history.length + lit.length)
    ∧ (b = false → s' = s ∨ s' = Backup 1 s) := by
  constructor
  · rintro rfl
    rfl
  · intro b s' hacc
    have hres := acceptSeqAux_drained lit h0 0 s s herr hbuf rfl (by omega) b s' hacc
    exact ⟨fun htrue => by have := hres.1 htrue; omega, hres.2⟩

/-- C8 witness: the amended AcceptSeq theorem applied to the concrete
drained Reader `c8s` and the fully matching literal "bc". -/
theorem C8_witness : c8s2.history.length = c8s.history.length + 2 :=
  ((C8_acceptSeq_amended [98, 99] c8s (by decide) rfl (by decide)).2
    true c8s2 (by decide)).1 rfl

/-- C8 counterexample: at the drained state `c8x` (one prior consumption,
remaining input "b"), `AcceptSeq "bc"` fails at end-of-stream after
matching "b" and backs up matched + 1 = 2 runes, landing at offset 0
instead of the pre-call offset 1: all-or-nothing is violated. -/
theorem C8_counterexample :
    (AcceptSeq [98, 99] c8x).map (fun bs => (bs.1, bs.2.current)) = some (false, 0)
  ∧ c8x.current = 1 := by
  decide

/-- C3: at the reachable state `c3state` (4097-byte ASCII source, 4094
`Next` calls, no `Ignore`), `fill` takes the slide branch with `start = 0`
and the read slice `buf[4097 : 4097 + 4096]` exceeds the 8192-byte buffer:
the Go expression `lrd.buf[lrd.head : lrd.head+readSize]` panics, modelled
here as `none`, refuting the claim that the read slice cannot fault. -/
theorem C3_fill_faults : fill c3state = none := by
  have hblen : c3state.buf.length = 8192 := by
    rw [show c3state.buf = List.replicate 4097 97 ++ List.replicate 4095 0 from rfl,
      List.length_append, List.length_replicate, List.length_replicate]
  simp only [fill]
  rw [if_neg (show ¬ (c3state.err = some GoErr.eof
        ∨ UTFMax ≤ c3state.head - c3state.current) by decide)]
  rw [if_neg (show ¬ c3state.buf.isEmpty = true by decide)]
  rw [hblen]
  rw [if_neg (show ¬ readSize ≤ 8192 - c3state.head by decide)]
  rw [if_neg (show ¬ 8192 - readSize ≤ c3state.current - c3state.start by decide)]
  rw [if_neg (show ¬ 8192 < c3state.start by decide)]
  rw [Option.some_bind]
  rw [if_pos ?hfault]
  case hfault =>
    rw [show c3state.start = 0 from rfl, List.drop_zero, Nat.sub_zero]
    rw [show List.drop 8192 c3state.buf = [] from
      List.drop_eq_nil_of_le (le_of_eq hblen)]
    rw [List.append_nil, hblen]
    decide

theorem Backup_two_c4state : Backup 2 c4state
    = { c4state with
        history := (List.range 3688).map (fun i => ⟨⟨1, 4501 + i⟩, 4500 + i⟩),
        current := 8188,
        currentPos := ⟨1, 8189⟩ } := by
  have hsplit : (List.range 3689).map (fun i => (⟨⟨1, 4501 + i⟩, 4500 + i⟩ : snapshot))
      = (List.range 3688).map (fun i => ⟨⟨1, 4501 + i⟩, 4500 + i⟩)
        ++ [⟨⟨1, 8189⟩, 8188⟩] := by
    rw [show (3689 : Nat) = 3688 + 1 from rfl, List.range_succ, List.map_append]
    norm_num
  rw [show (2 : Nat) = 1 + 1 from rfl]
  show Backup (1 + 1) c4state = _
  rw [show c4state = { c4state with
      history := (List.range 3689).map (fun i => ⟨⟨1, 4501 + i⟩, 4500 + i⟩)
        ++ [⟨⟨1, 8190⟩, 3689⟩] } from rfl]
  simp only [Backup, List.getLast?_concat, List.dropLast_concat, hsplit]

/-- C4: at the reachable post-slide state `c4state`, the public operation
`Backup 2` pops a history snapshot holding a stale pre-slide offset and
leaves `current = 8188 > head = 7788`, violating the claimed ordering
invariant `start ≤ current ≤ head`. -/
theorem C4_counterexample :
    (Backup 2 c4state).head < (Backup 2 c4state).current := by
  rw [Backup_two_c4state]
  decide

/-- `fill` in the grow branch with an exhausted source: the buffer doubles,
nothing is read, and io.EOF is recorded. -/
theorem fill_grow (r : Reader) (herr : r.err = none) (hbuf : r.buf ≠ [])
    (hlt : r.head - r.current < UTFMax)
    (h1 : r.buf.length - r.head < readSize)
    (h2 : r.buf.length - readSize ≤ r.current - r.start)
    (hsrc : r.src = [])
    (hfit : r.head + readSize ≤ r.buf.length + r.buf.length) :
    fill r = some { r with
      buf := r.buf ++ List.replicate r.buf.length 0,
      err := some GoErr.eof } := by
  obtain ⟨buf, history, src, err, sp, cp, head, start, current⟩ := r
  simp only at herr hbuf hlt h1 h2 hsrc hfit ⊢
  subst herr hsrc
  have hb : buf.isEmpty = false := List.isEmpty_eq_false.mpr hbuf
  simp only [readSize, UTFMax] at hlt h1 h2 hfit
  simp only [fill, hb, Bool.false_eq_true, if_false, readSize, UTFMax]
  rw [if_neg (show ¬ (none = some GoErr.eof ∨ 4 ≤ head - current)
    from not_or.mpr ⟨by simp, by omega⟩)]
  rw [if_neg (show ¬ (4096 ≤ buf.length - head) by omega)]
  rw [if_pos h2, Option.some_bind]
  dsimp only
  rw [if_neg (by rw [List.length_append, List.length_replicate]; omega)]
  simp only [srcRead, List.length_nil, Nat.add_zero, writeAt_nil]
  rw [if_neg (by omega)]
  rw [if_pos (by simp)]

/-- C2: at the reachable post-slide state `c4state` (see its docstring),
`Backup 2` restores a stale pre-slide offset and the following `Next`
returns the sentinel instead of the rune 97 originally observed there:
backup symmetry fails once `fill` slides the buffer, because slide rebases
`start`/`current`/`head` but not the offsets stored in `history`. -/
theorem C2_counterexample :
    (Next (Backup 2 c4state)).map Prod.fst = some EOF := by
  rw [Backup_two_c4state]
  have hblen : c4state.buf.length = 8192 := by
    rw [show c4state.buf = List.replicate 8192 97 from rfl, List.length_replicate]
  have hfill := fill_grow
    { c4state with
      history := (List.range 3688).map (fun i => ⟨⟨1, 4501 + i⟩, 4500 + i⟩),
      current := 8188,
      currentPos := ⟨1, 8189⟩ }
    (by decide) (by decide) (by decide)
    (by rw [show ({ c4state with
        history := (List.range 3688).map (fun i => ⟨⟨1, 4501 + i⟩, 4500 + i⟩),
        current := 8188,
        currentPos := ⟨1, 8189⟩ } : Reader).buf = c4state.buf from rfl, hblen]; decide)
    (by rw [show ({ c4state with
        history := (List.range 3688).map (fun i => ⟨⟨1, 4501 + i⟩, 4500 + i⟩),
        current := 8188,
        currentPos := ⟨1, 8189⟩ } : Reader).buf = c4state.buf from rfl, hblen]; decide)
    (by decide)
    (by rw [show ({ c4state with
        history := (List.range 3688).map (fun i => ⟨⟨1, 4501 + i⟩, 4500 + i⟩),
        current := 8188,
        currentPos := ⟨1, 8189⟩ } : Reader).buf = c4state.buf from rfl, hblen]; decide)
  rw [hblen] at hfill
  simp only [Next]
  rw [hfill, Option.map_some', Option.map_some']
  rw [if_pos (by decide)]
